import Mathlib

/-!
Verification of the token-by-token GPT-2 generation loop from
`223-gpt2-text-prediction.ipynb`.

The notebook's float-valued logits are modelled as `WithBot ℚ`: every finite
IEEE double is a rational, and `⊥` stands for `-float("inf")` (the only
infinity the code ever produces; NaN never arises on the domains the theorems
quantify over, and the one spot where the reference would produce NaN — a
softmax over an empty or all-`-inf` vector — is documented at `softmax`).
Softmax and the categorical draw are idealised over `ℝ` (exact real
arithmetic in place of double rounding).
-/

/-- A logits entry: a finite score (`(q : ℚ)`) or `-inf` (`⊥`),
mirroring the float values flowing through the notebook. -/
abbrev Score := WithBot ℚ

/-- `np.min` over a 1-D array: left fold of `min` over the elements.
Empty input (where NumPy raises) is mapped to `⊥`; theorems never use it. -/
def listMin : List Score → Score
  | [] => ⊥
  | a :: as => as.foldl min a

/-- `np.max` over a 1-D array: left fold of `max` over the elements.
Empty input (where NumPy raises) is mapped to `⊥`; theorems never use it. -/
def listMax : List Score → Score
  | [] => ⊥
  | a :: as => as.foldl max a

/-- `-np.sort(-scores)` for a 1-D row: sorting in descending order.
(Negating, sorting ascending and negating back is exactly a descending sort
of the values; `-(-inf) = +inf` sorts first ascending, hence `-inf` sorts
last descending, which this comparator reproduces.) -/
def sortDesc (l : List Score) : List Score :=
  l.mergeSort (fun a b => decide (b ≤ a))

/-- `process_logits` from the notebook (batch dimension dropped: the
reference always runs batch 1 and writes `scores[:, eos_token_id]`):

    def process_logits(input_ids, scores, eos_token_id, min_length=0):
        cur_length = input_ids.shape[-1]
        if cur_length < min_length:
            scores[:, eos_token_id] = -float("inf")
        return scores
-/
def process_logits (input_ids : List ℕ) (scores : List Score)
    (eos_token_id : ℕ) (min_length : ℕ := 0) : List Score :=
  let cur_length := input_ids.length
  if cur_length < min_length then scores.set eos_token_id ⊥ else scores

/-- The caller's view of its `scores` array after `process_logits` returns:
the NumPy assignment `scores[:, eos_token_id] = -inf` writes through the
reference passed in, so the caller's array afterwards holds exactly the
values `process_logits` returns. -/
def process_logits_caller_after (input_ids : List ℕ) (scores : List Score)
    (eos_token_id : ℕ) (min_length : ℕ := 0) : List Score :=
  process_logits input_ids scores eos_token_id min_length

/-- `get_top_k_logits` from the notebook (batch dimension dropped):

    def get_top_k_logits(scores, top_k):
        filter_value = -float("inf")
        top_k = min(max(top_k, 1), scores.shape[-1])
        top_k_scores = -np.sort(-scores)[:, :top_k]
        indices_to_remove = scores < np.min(top_k_scores)
        filtred_scores = np.ma.array(scores, mask=indices_to_remove,
                                     fill_value=filter_value).filled()
        return filtred_scores

The masked-array construction followed by `.filled()` replaces exactly the
masked entries by `filter_value` and copies the rest, i.e. it is the
pointwise map below. `top_k` is a Python `int`, so it is taken in `ℤ`. -/
def get_top_k_logits (scores : List Score) (top_k : ℤ) : List Score :=
  let top_k2 : ℕ := (min (max top_k 1) (scores.length : ℤ)).toNat
  let top_k_scores := (sortDesc scores).take top_k2
  let threshold := listMin top_k_scores
  scores.map (fun s => if s < threshold then ⊥ else s)

/-- The clamped `top_k` actually used by `get_top_k_logits`:
`min(max(top_k, 1), scores.shape[-1])`. -/
def top_k_clamped (scores : List Score) (top_k : ℤ) : ℕ :=
  (min (max top_k 1) (scores.length : ℤ)).toNat

/-- The caller's view of its `scores` array after `get_top_k_logits`
returns: the body never writes into `scores` (`-np.sort(-scores)` copies,
and `np.ma.array(...).filled()` builds a fresh array), so the caller's
array is unchanged. -/
def get_top_k_logits_caller_after (scores : List Score) (_top_k : ℤ) :
    List Score :=
  scores

-- Basic facts about listMin / listMax.

theorem foldl_min_le_mem (l : List Score) :
    ∀ (a : Score), ∀ x ∈ a :: l, l.foldl min a ≤ x := by
  induction l with
  | nil => intro a x hx; simp at hx; simp [hx]
  | cons b l ih =>
    intro a x hx
    have hbase : l.foldl min (min a b) ≤ min a b :=
      ih (min a b) (min a b) (List.mem_cons_self _ _)
    simp only [List.mem_cons] at hx
    simp only [List.foldl_cons]
    rcases hx with rfl | rfl | hx
    · exact le_trans hbase (min_le_left _ _)
    · exact le_trans hbase (min_le_right _ _)
    · exact ih (min a b) x (List.mem_cons_of_mem _ hx)

theorem foldl_min_mem (l : List Score) :
    ∀ (a : Score), l.foldl min a ∈ a :: l := by
  induction l with
  | nil => intro a; simp
  | cons b l ih =>
    intro a
    simp only [List.foldl_cons]
    rcases List.mem_cons.mp (ih (min a b)) with h' | h'
    · rw [h']
      rcases min_cases a b with ⟨he, _⟩ | ⟨he, _⟩
      · rw [he]; exact List.mem_cons_self _ _
      · rw [he]; exact List.mem_cons_of_mem _ (List.mem_cons_self _ _)
    · exact List.mem_cons_of_mem _ (List.mem_cons_of_mem _ h')

theorem listMin_le_of_mem {l : List Score} {x : Score} (hx : x ∈ l) :
    listMin l ≤ x := by
  cases l with
  | nil => cases hx
  | cons a as => exact foldl_min_le_mem as a x hx

theorem listMin_mem {l : List Score} (h : l ≠ []) : listMin l ∈ l := by
  cases l with
  | nil => cases h rfl
  | cons a as => exact foldl_min_mem as a

theorem le_foldl_max_mem (l : List Score) :
    ∀ (a : Score), ∀ x ∈ a :: l, x ≤ l.foldl max a := by
  induction l with
  | nil => intro a x hx; simp at hx; simp [hx]
  | cons b l ih =>
    intro a x hx
    have hbase : max a b ≤ l.foldl max (max a b) :=
      ih (max a b) (max a b) (List.mem_cons_self _ _)
    simp only [List.mem_cons] at hx
    simp only [List.foldl_cons]
    rcases hx with rfl | rfl | hx
    · exact le_trans (le_max_left _ _) hbase
    · exact le_trans (le_max_right _ _) hbase
    · exact ih (max a b) x (List.mem_cons_of_mem _ hx)

theorem foldl_max_mem (l : List Score) :
    ∀ (a : Score), l.foldl max a ∈ a :: l := by
  induction l with
  | nil => intro a; simp
  | cons b l ih =>
    intro a
    simp only [List.foldl_cons]
    rcases List.mem_cons.mp (ih (max a b)) with h' | h'
    · rw [h']
      rcases max_cases a b with ⟨he, _⟩ | ⟨he, _⟩
      · rw [he]; exact List.mem_cons_self _ _
      · rw [he]; exact List.mem_cons_of_mem _ (List.mem_cons_self _ _)
    · exact List.mem_cons_of_mem _ (List.mem_cons_of_mem _ h')

theorem le_listMax_of_mem {l : List Score} {x : Score} (hx : x ∈ l) :
    x ≤ listMax l := by
  cases l with
  | nil => cases hx
  | cons a as => exact le_foldl_max_mem as a x hx

theorem listMax_mem {l : List Score} (h : l ≠ []) : listMax l ∈ l := by
  cases l with
  | nil => cases h rfl
  | cons a as => exact foldl_max_mem as a

/-- One entry of `np.exp(x - np.max(x))` when the row maximum is the finite
value `m`: a `-inf` entry gives `exp(-inf) = 0`, a finite entry `a` gives
`exp(a - m)`. -/
noncomputable def sexp (m : ℚ) (s : Score) : ℝ :=
  if s = ⊥ then 0 else Real.exp (((s.unbot' 0 - m : ℚ) : ℝ))

/-- `softmax` from the notebook (batch dimension dropped):

    def softmax(x):
        e_x = np.exp(x - np.max(x, axis=-1, keepdims=True))
        summation = e_x.sum(axis=-1, keepdims=True)
        return e_x / summation

When the row maximum is `-inf` (empty row, where NumPy raises, or an
all-`-inf` row, where the float code computes `-inf - -inf = NaN` and
returns a NaN vector) there is no real-valued counterpart; that branch
returns an arbitrary all-zero vector and every theorem below excludes it
by requiring a finite maximum. -/
noncomputable def softmax (x : List Score) : List ℝ :=
  if listMax x = ⊥ then x.map (fun _ => 0)
  else
    let m : ℚ := (listMax x).unbot' 0
    let e_x := x.map (sexp m)
    let summation := e_x.sum
    e_x.map (fun v => v / summation)

/-- `np.cumsum` over a 1-D array: entry `i` is the sum of the first `i + 1`
elements. -/
def cumsum (p : List ℝ) : List ℝ :=
  (List.range p.length).map (fun i => (p.take (i + 1)).sum)

open Classical in
/-- `np.random.choice(len(p), 1, p=p, replace=True)[0]` for a single
uniform draw `u ∈ [0, 1)`: NumPy forms the cumulative distribution
`cdf = p.cumsum(); cdf /= cdf[-1]` and returns
`cdf.searchsorted(u, side='right')`, i.e. the number of cdf entries `≤ u`.
(`cdf[-1]` on an empty `p` raises in NumPy; it is mapped to `0` here and
never reached by the theorems.) -/
noncomputable def choice (p : List ℝ) (u : ℝ) : ℕ :=
  let cdf := cumsum p
  let total := cdf.getLast?.getD 0
  let cdfn := cdf.map (fun c => c / total)
  cdfn.countP (fun c => decide (c ≤ u))

/-- The token sampled by one iteration of the `generate_sequence` loop,
given the current `input_ids`; this is the loop body up to `next_tokens`:

        cur_input_len = len(input_ids[0])
        pad_len = max_sequence_length - cur_input_len
        model_input = np.concatenate((input_ids, [[eos_token_id] * pad_len]), axis=-1)
        outputs = compiled_model(inputs=[model_input])[output_keys]
        next_token_logits = outputs[:, cur_input_len - 1, :]
        next_token_scores = process_logits(input_ids, next_token_logits, eos_token_id)
        top_k = 20
        next_token_scores = get_top_k_logits(next_token_scores, top_k)
        probs = softmax(next_token_scores)
        next_tokens = np.random.choice(probs.shape[-1], 1, p=probs[0], replace=True)

The external `compiled_model` is the parameter `model`, mapping the padded
id row to the per-position logits rows `outputs[0]`; `us t` is the uniform
draw consumed by `np.random.choice` on iteration `t`. Batch dimension is
dropped throughout (the reference runs batch 1). A negative Python
`pad_len` yields `[[eos_token_id] * pad_len] = [[]]`, i.e. no padding,
which `ℕ` subtraction reproduces; `outputs[:, cur_input_len - 1, :]` with
`cur_input_len = 0` is Python index `-1`, the last row. -/
noncomputable def next_token_of (model : List ℕ → List (List Score))
    (us : ℕ → ℝ) (max_sequence_length eos_token_id t : ℕ)
    (input_ids : List ℕ) : ℕ :=
  let cur_input_len := input_ids.length
  let pad_len := max_sequence_length - cur_input_len
  let model_input := input_ids ++ List.replicate pad_len eos_token_id
  let outputs := model model_input
  let next_token_logits :=
    if cur_input_len = 0 then outputs.getD (outputs.length - 1) []
    else outputs.getD (cur_input_len - 1) []
  let next_token_scores := process_logits input_ids next_token_logits eos_token_id
  let top_k : ℤ := 20
  let next_token_scores2 := get_top_k_logits next_token_scores top_k
  let probs := softmax next_token_scores2
  choice probs (us t)

/-- The `while True:` loop of `generate_sequence`, made total by a fuel
parameter (the reference loop has no bound of its own; `none` stands for
running longer than the supplied fuel). `t` numbers the iterations so each
consumes its own uniform draw `us t`. The second component of a `some`
result counts the model invocations performed, one per iteration:

        if cur_input_len == max_sequence_length or next_tokens == eos_token_id:
            break
        else:
            input_ids = np.concatenate((input_ids, [next_tokens]), axis=-1)
    return input_ids
-/
noncomputable def generate_sequence_aux (model : List ℕ → List (List Score))
    (us : ℕ → ℝ) (max_sequence_length eos_token_id : ℕ) :
    ℕ → ℕ → List ℕ → Option (List ℕ × ℕ)
  | 0, _, _ => none
  | fuel + 1, t, input_ids =>
    let next_token := next_token_of model us max_sequence_length eos_token_id t input_ids
    if input_ids.length = max_sequence_length ∨ next_token = eos_token_id then
      some (input_ids, 1)
    else
      (generate_sequence_aux model us max_sequence_length eos_token_id fuel (t + 1)
        (input_ids ++ [next_token])).map (fun r => (r.1, r.2 + 1))

/-- `generate_sequence` with its model-call count: the loop run from the
prompt with fuel `max_sequence_length + 2`, which the termination lemmas
below show suffices whenever the prompt is no longer than
`max_sequence_length`. -/
noncomputable def generate_sequence_traced (model : List ℕ → List (List Score))
    (us : ℕ → ℝ) (input_ids : List ℕ)
    (max_sequence_length eos_token_id : ℕ) : Option (List ℕ × ℕ) :=
  generate_sequence_aux model us max_sequence_length eos_token_id
    (max_sequence_length + 2) 0 input_ids

/-- `generate_sequence(input_ids, max_sequence_length, eos_token_id)` from
the notebook: the final `input_ids` (batch dimension dropped). -/
noncomputable def generate_sequence (model : List ℕ → List (List Score))
    (us : ℕ → ℝ) (input_ids : List ℕ)
    (max_sequence_length eos_token_id : ℕ) : Option (List ℕ) :=
  (generate_sequence_traced model us input_ids max_sequence_length
    eos_token_id).map Prod.fst

/-- A logits row of length `V` that is `-inf` everywhere except a single
`0.0` at index `j`: the sampler can only ever pick `j` from it. -/
def oneHot (V j : ℕ) : List Score :=
  (List.replicate V (⊥ : Score)).set j ((0 : ℚ) : Score)

/-- A model stub returning the same logits row at every sequence position,
used for the spec's concrete scenarios. -/
def constRowModel (max_sequence_length : ℕ) (row : List Score) :
    List ℕ → List (List Score) :=
  fun _ => List.replicate max_sequence_length row

-- Generic pointwise list lemmas.

theorem getD_map_lt {α β : Type*} (f : α → β) (l : List α) (i : ℕ)
    (h : i < l.length) (d : α) (d' : β) :
    (l.map f).getD i d' = f (l.getD i d) := by
  rw [List.getD_eq_getElem l d h,
      List.getD_eq_getElem (l.map f) d' (by simpa using h),
      List.getElem_map]

theorem getD_range {n i : ℕ} (h : i < n) (d : ℕ) :
    (List.range n).getD i d = i := by
  rw [List.getD_eq_getElem _ d (by simpa using h)]
  simp

theorem getLast?_getD_eq {α : Type*} {l : List α} (h : l ≠ []) (d : α) :
    l.getLast?.getD d = l.getD (l.length - 1) d := by
  rw [List.getLast?_eq_getElem?, List.getD_eq_getElem?_getD]

theorem sum_indicator {p : List ℝ} {j : ℕ} {v : ℝ}
    (hj : j < p.length) (hpj : p.getD j 0 = v)
    (h0 : ∀ i, i < p.length → i ≠ j → p.getD i 0 = 0) :
    p.sum = v := by
  induction p generalizing j with
  | nil => simp at hj
  | cons a l ih =>
    cases j with
    | zero =>
      have ha : a = v := by simpa using hpj
      have hl : l.sum = 0 := List.sum_eq_zero (by
        intro x hx
        rcases List.mem_iff_getElem.mp hx with ⟨i, hi, rfl⟩
        have := h0 (i + 1) (by simpa using Nat.succ_lt_succ hi)
          (Nat.succ_ne_zero i)
        rw [List.getD_cons_succ, List.getD_eq_getElem l 0 hi] at this
        exact this)
      simp [ha, hl]
    | succ j' =>
      have ha : a = 0 := by
        have := h0 0 (by simp) (by simp)
        simpa using this
      have hj' : j' < l.length := by
        simpa [Nat.succ_lt_succ_iff] using hj
      have hpj' : l.getD j' 0 = v := by simpa using hpj
      have h0' : ∀ i, i < l.length → i ≠ j' → l.getD i 0 = 0 := by
        intro i hi hij
        have := h0 (i + 1) (by simpa using Nat.succ_lt_succ hi)
          (by simpa using hij)
        simpa using this
      simp [ha, ih hj' hpj' h0']

theorem take_sum_indicator {p : List ℝ} {j : ℕ} {v : ℝ}
    (hj : j < p.length) (hpj : p.getD j 0 = v)
    (h0 : ∀ i, i < p.length → i ≠ j → p.getD i 0 = 0) :
    ∀ n, (p.take n).sum = if j < n then v else 0 := by
  induction p generalizing j with
  | nil => simp at hj
  | cons a l ih =>
    intro n
    cases j with
    | zero =>
      have ha : a = v := by simpa using hpj
      have hl : ∀ x ∈ l, x = 0 := by
        intro x hx
        rcases List.mem_iff_getElem.mp hx with ⟨i, hi, rfl⟩
        have := h0 (i + 1) (by simpa using Nat.succ_lt_succ hi)
          (Nat.succ_ne_zero i)
        rw [List.getD_cons_succ, List.getD_eq_getElem l 0 hi] at this
        exact this
      cases n with
      | zero => simp
      | succ m =>
        have hsum : (l.take m).sum = 0 :=
          List.sum_eq_zero (fun x hx => hl x (List.take_subset m l hx))
        simp [ha, hsum]
    | succ j' =>
      have ha : a = 0 := by
        have := h0 0 (by simp) (by simp)
        simpa using this
      have hj' : j' < l.length := by
        simpa [Nat.succ_lt_succ_iff] using hj
      have hpj' : l.getD j' 0 = v := by simpa using hpj
      have h0' : ∀ i, i < l.length → i ≠ j' → l.getD i 0 = 0 := by
        intro i hi hij
        have := h0 (i + 1) (by simpa using Nat.succ_lt_succ hi)
          (by simpa using hij)
        simpa using this
      cases n with
      | zero => simp
      | succ m =>
        have := ih hj' hpj' h0' m
        simp [ha, this, Nat.succ_lt_succ_iff]

theorem countP_range_lt (j n : ℕ) :
    (List.range n).countP (fun i => decide (i < j)) = min j n := by
  induction n with
  | zero => simp
  | succ m ih =>
    rw [List.range_succ, List.countP_append, ih]
    have hs : List.countP (fun i => decide (i < j)) [m] =
        if m < j then 1 else 0 := by
      simp [List.countP_cons]
    rw [hs]
    by_cases h : m < j
    · simp only [h, if_true]
      omega
    · simp only [h, if_false]
      omega

theorem cumsum_length (p : List ℝ) : (cumsum p).length = p.length := by
  simp [cumsum]

theorem cumsum_getD {p : List ℝ} {i : ℕ} (h : i < p.length) :
    (cumsum p).getD i 0 = (p.take (i + 1)).sum := by
  unfold cumsum
  rw [getD_map_lt _ _ i (by simpa using h) 0 0, getD_range h 0]

-- Facts about the descending sort used by get_top_k_logits.

theorem sortDesc_perm (l : List Score) : (sortDesc l).Perm l :=
  List.mergeSort_perm l _

theorem sortDesc_length (l : List Score) :
    (sortDesc l).length = l.length :=
  (sortDesc_perm l).length_eq

theorem sortDesc_sorted (l : List Score) :
    List.Pairwise (fun a b : Score => b ≤ a) (sortDesc l) := by
  have h := @List.sorted_mergeSort Score (fun a b : Score => decide (b ≤ a))
    (fun a b c hab hbc => by
      simp only [decide_eq_true_eq] at *
      exact le_trans hbc hab)
    (fun a b => by
      simp only [Bool.or_eq_true, decide_eq_true_eq]
      exact le_total b a)
    l
  exact h.imp (fun hab => of_decide_eq_true hab)

/-- Unfolding of `get_top_k_logits` through its clamped `top_k`. -/
theorem get_top_k_logits_eq (scores : List Score) (top_k : ℤ) :
    get_top_k_logits scores top_k =
      scores.map (fun s =>
        if s < listMin ((sortDesc scores).take (top_k_clamped scores top_k))
        then ⊥ else s) :=
  rfl

theorem top_k_clamped_le_length (scores : List Score) (top_k : ℤ) :
    top_k_clamped scores top_k ≤ scores.length := by
  unfold top_k_clamped
  have h := Int.toNat_le_toNat
    (min_le_right (max top_k 1) ((scores.length : ℤ)))
  rw [Int.toNat_natCast] at h
  exact h

theorem one_le_top_k_clamped {scores : List Score} (top_k : ℤ)
    (h : scores ≠ []) : 1 ≤ top_k_clamped scores top_k := by
  have hlen : 1 ≤ scores.length := by
    have := List.length_pos.mpr h
    omega
  have h1 : (1 : ℤ) ≤ min (max top_k 1) (scores.length : ℤ) :=
    le_min (le_max_right _ _) (by exact_mod_cast hlen)
  unfold top_k_clamped
  have := Int.toNat_le_toNat h1
  simpa using this

/-- On a descending-sorted list, the minimum of the first `k` elements is
the element at index `k - 1` (the `k`-th largest). -/
theorem listMin_take_sorted {l : List Score}
    (hs : List.Pairwise (fun a b : Score => b ≤ a) l)
    {k : ℕ} (hk1 : 1 ≤ k) (hk2 : k ≤ l.length) :
    listMin (l.take k) = l.getD (k - 1) ⊥ := by
  have hlen : (l.take k).length = k := by
    simp only [List.length_take]
    omega
  have hk1' : k - 1 < l.length := by omega
  have hmem : l.getD (k - 1) ⊥ ∈ l.take k := by
    rw [List.getD_eq_getElem _ _ hk1']
    rw [List.mem_take_iff_getElem]
    exact ⟨k - 1, by omega, rfl⟩
  have hne : l.take k ≠ [] := by
    intro hcon
    rw [hcon] at hlen
    simp at hlen
    omega
  have h1 : listMin (l.take k) ≤ l.getD (k - 1) ⊥ := listMin_le_of_mem hmem
  have h2 : l.getD (k - 1) ⊥ ≤ listMin (l.take k) := by
    rcases List.mem_take_iff_getElem.mp (listMin_mem hne) with ⟨i, hi, heq⟩
    rw [List.getD_eq_getElem _ _ hk1', ← heq]
    rcases Nat.lt_or_ge i (k - 1) with hlt | hge
    · exact List.pairwise_iff_getElem.mp hs i (k - 1) (by omega) hk1' hlt
    · have hieq : i = k - 1 := by omega
      subst hieq
      exact le_refl _
  exact le_antisymm h1 h2

/-- The head of the descending sort of a non-empty list is its maximum. -/
theorem sortDesc_getD_zero {l : List Score} (h : l ≠ []) :
    (sortDesc l).getD 0 ⊥ = listMax l := by
  have hlen : 0 < l.length := List.length_pos.mpr h
  have hlen' : 0 < (sortDesc l).length := by rw [sortDesc_length]; exact hlen
  have h1 : (sortDesc l).getD 0 ⊥ ≤ listMax l := by
    rw [List.getD_eq_getElem _ _ hlen']
    exact le_listMax_of_mem
      ((sortDesc_perm l).mem_iff.mp (List.getElem_mem hlen'))
  have h2 : listMax l ≤ (sortDesc l).getD 0 ⊥ := by
    have hmem : listMax l ∈ sortDesc l :=
      (sortDesc_perm l).mem_iff.mpr (listMax_mem h)
    rcases List.mem_iff_getElem.mp hmem with ⟨i, hi, heq⟩
    rw [List.getD_eq_getElem _ _ hlen', ← heq]
    rcases Nat.eq_zero_or_pos i with rfl | hpos
    · exact le_refl _
    · exact List.pairwise_iff_getElem.mp (sortDesc_sorted l) 0 i hlen' hi hpos
  exact le_antisymm h1 h2

/-- If strictly fewer than the clamped `top_k` entries are finite, the
top-K threshold is `-inf` and the filter returns the row unchanged. -/
theorem get_top_k_eq_self_of_few_finite {scores : List Score} {top_k : ℤ}
    (h : scores.countP (fun s => decide (s ≠ ⊥)) < top_k_clamped scores top_k) :
    get_top_k_logits scores top_k = scores := by
  set k := top_k_clamped scores top_k with hk
  have hkle : k ≤ scores.length := top_k_clamped_le_length scores top_k
  have hlen : ((sortDesc scores).take k).length = k := by
    simp only [List.length_take, sortDesc_length]
    omega
  have hbot : listMin ((sortDesc scores).take k) = ⊥ := by
    by_contra hne
    have hall : ∀ s ∈ (sortDesc scores).take k, s ≠ ⊥ := by
      intro s hs hsbot
      subst hsbot
      exact hne (le_bot_iff.mp (listMin_le_of_mem hs))
    have hcount : ((sortDesc scores).take k).countP
        (fun s => decide (s ≠ ⊥)) = k := by
      have hc : ((sortDesc scores).take k).countP (fun s => decide (s ≠ ⊥)) =
          ((sortDesc scores).take k).length :=
        List.countP_eq_length.mpr (fun a ha => by
          simp only [decide_eq_true_eq]
          exact hall a ha)
      rw [hc, hlen]
    have hsplit : (sortDesc scores).countP (fun s => decide (s ≠ ⊥)) =
        ((sortDesc scores).take k).countP (fun s => decide (s ≠ ⊥)) +
        ((sortDesc scores).drop k).countP (fun s => decide (s ≠ ⊥)) := by
      rw [← List.countP_append, List.take_append_drop]
    have hperm : (sortDesc scores).countP (fun s => decide (s ≠ ⊥)) =
        scores.countP (fun s => decide (s ≠ ⊥)) :=
      (sortDesc_perm scores).countP_eq _
    omega
  rw [get_top_k_logits_eq, ← hk, hbot]
  conv_rhs => rw [← List.map_id scores]
  exact List.map_congr_left (fun s _ => by simp [not_lt_bot])

-- Softmax and the categorical draw on (near-)indicator rows.

theorem listMax_eq_of_ub {s : List Score} {j : ℕ} {m : ℚ}
    (hj : j < s.length) (hpj : s.getD j ⊥ = (m : Score))
    (hub : ∀ i, i < s.length → s.getD i ⊥ ≤ (m : Score)) :
    listMax s = (m : Score) := by
  have hsne : s ≠ [] := by
    intro hcon
    subst hcon
    simp at hj
  have h1 : (m : Score) ≤ listMax s := by
    rw [← hpj, List.getD_eq_getElem _ _ hj]
    exact le_listMax_of_mem (List.getElem_mem hj)
  have h2 : listMax s ≤ (m : Score) := by
    rcases List.mem_iff_getElem.mp (listMax_mem hsne) with ⟨i, hi, heq⟩
    rw [← heq]
    have := hub i hi
    rwa [List.getD_eq_getElem _ _ hi] at this
  exact le_antisymm h2 h1

theorem softmax_indicator {s : List Score} {j : ℕ} {m : ℚ}
    (hj : j < s.length) (hpj : s.getD j ⊥ = (m : Score))
    (hother : ∀ i, i < s.length → i ≠ j → s.getD i ⊥ = ⊥) :
    (softmax s).length = s.length ∧
    (softmax s).getD j 0 = 1 ∧
    (∀ i, i < s.length → i ≠ j → (softmax s).getD i 0 = 0) := by
  have hub : ∀ i, i < s.length → s.getD i ⊥ ≤ (m : Score) := by
    intro i hi
    by_cases hij : i = j
    · subst hij
      rw [hpj]
    · rw [hother i hi hij]
      exact bot_le
  have hmax : listMax s = (m : Score) := listMax_eq_of_ub hj hpj hub
  have hne : ¬ listMax s = ⊥ := by
    rw [hmax]
    exact WithBot.coe_ne_bot
  have hm' : (listMax s).unbot' 0 = m := by
    rw [hmax]
    exact WithBot.unbot'_coe 0 m
  have hsm : softmax s =
      (s.map (sexp m)).map (fun v => v / (s.map (sexp m)).sum) := by
    unfold softmax
    rw [if_neg hne]
    simp only [hm']
  have hej : (s.map (sexp m)).getD j 0 = 1 := by
    rw [getD_map_lt (sexp m) s j hj ⊥ 0, hpj]
    simp [sexp, Real.exp_zero]
  have he0 : ∀ i, i < s.length → i ≠ j → (s.map (sexp m)).getD i 0 = 0 := by
    intro i hi hij
    rw [getD_map_lt (sexp m) s i hi ⊥ 0, hother i hi hij]
    simp [sexp]
  have hsum : (s.map (sexp m)).sum = 1 :=
    sum_indicator (by simpa using hj) hej
      (fun i hi hij => he0 i (by simpa using hi) hij)
  refine ⟨?_, ?_, ?_⟩
  · rw [hsm]
    simp
  · rw [hsm, getD_map_lt _ _ j (by simpa using hj) 0 0, hej, hsum]
    norm_num
  · intro i hi hij
    rw [hsm, getD_map_lt _ _ i (by simpa using hi) 0 0, he0 i hi hij, hsum]
    norm_num

theorem choice_indicator {p : List ℝ} {j : ℕ}
    (hj : j < p.length) (hpj : p.getD j 0 = 1)
    (h0 : ∀ i, i < p.length → i ≠ j → p.getD i 0 = 0)
    {u : ℝ} (hu0 : 0 ≤ u) (hu1 : u < 1) :
    choice p u = j := by
  have hplen : 0 < p.length := by omega
  have hne : p ≠ [] := by
    rw [← List.length_pos]
    exact hplen
  have hcne : cumsum p ≠ [] := by
    rw [← List.length_pos, cumsum_length]
    exact hplen
  have htake : ∀ n, (p.take n).sum = if j < n then 1 else 0 :=
    take_sum_indicator hj hpj h0
  have htot : (cumsum p).getLast?.getD 0 = 1 := by
    rw [getLast?_getD_eq hcne 0, cumsum_length,
        cumsum_getD (by omega : p.length - 1 < p.length),
        htake (p.length - 1 + 1), if_pos (by omega)]
  have hfinal : List.countP (fun i => decide (i < j))
      (List.range p.length) = j := by
    rw [countP_range_lt]
    exact Nat.min_eq_left (Nat.le_of_lt hj)
  simp only [choice]
  rw [htot]
  unfold cumsum
  rw [List.map_map, List.countP_map, ← hfinal]
  apply List.countP_congr
  intro i hi
  have hi' : i < p.length := List.mem_range.mp hi
  simp only [Function.comp_apply, htake (i + 1), decide_eq_true_eq]
  by_cases hij : j < i + 1
  · rw [if_pos hij]
    refine iff_of_false ?_ (by omega)
    rw [div_one]
    intro hcon
    linarith
  · rw [if_neg hij]
    refine iff_of_true ?_ (by omega)
    rw [zero_div]
    exact hu0

-- Unfolding and invariants of the generation loop.

theorem generate_sequence_aux_stop {model : List ℕ → List (List Score)}
    {us : ℕ → ℝ} {max_sequence_length eos_token_id fuel t : ℕ}
    {input_ids : List ℕ}
    (h : input_ids.length = max_sequence_length ∨
      next_token_of model us max_sequence_length eos_token_id t input_ids =
        eos_token_id) :
    generate_sequence_aux model us max_sequence_length eos_token_id
      (fuel + 1) t input_ids = some (input_ids, 1) := by
  simp only [generate_sequence_aux]
  rw [if_pos h]

theorem generate_sequence_aux_step {model : List ℕ → List (List Score)}
    {us : ℕ → ℝ} {max_sequence_length eos_token_id fuel t : ℕ}
    {input_ids : List ℕ}
    (h : ¬ (input_ids.length = max_sequence_length ∨
      next_token_of model us max_sequence_length eos_token_id t input_ids =
        eos_token_id)) :
    generate_sequence_aux model us max_sequence_length eos_token_id
      (fuel + 1) t input_ids =
      (generate_sequence_aux model us max_sequence_length eos_token_id fuel
        (t + 1) (input_ids ++
          [next_token_of model us max_sequence_length eos_token_id t
            input_ids])).map (fun r => (r.1, r.2 + 1)) := by
  simp only [generate_sequence_aux]
  rw [if_neg h]

theorem generate_sequence_aux_spec {model : List ℕ → List (List Score)}
    {us : ℕ → ℝ} {max_sequence_length eos_token_id : ℕ} :
    ∀ fuel t input_ids res calls,
      generate_sequence_aux model us max_sequence_length eos_token_id fuel t
        input_ids = some (res, calls) →
      input_ids <+: res ∧ 1 ≤ calls ∧
      (input_ids.length ≤ max_sequence_length →
        res.length ≤ max_sequence_length) := by
  intro fuel
  induction fuel with
  | zero =>
    intro t input_ids res calls h
    simp [generate_sequence_aux] at h
  | succ fuel ih =>
    intro t input_ids res calls h
    by_cases hstop : input_ids.length = max_sequence_length ∨
        next_token_of model us max_sequence_length eos_token_id t input_ids =
          eos_token_id
    · rw [generate_sequence_aux_stop hstop] at h
      obtain ⟨rfl, rfl⟩ : input_ids = res ∧ 1 = calls := by
        constructor <;> [exact congrArg Prod.fst (Option.some.inj h);
          exact congrArg Prod.snd (Option.some.inj h)]
      exact ⟨List.prefix_refl _, le_refl 1, fun hle => hle⟩
    · rw [generate_sequence_aux_step hstop] at h
      rcases Option.map_eq_some'.mp h with ⟨⟨r, c⟩, hr, hrc⟩
      obtain ⟨rfl, rfl⟩ : r = res ∧ c + 1 = calls := by
        constructor <;> [exact congrArg Prod.fst hrc;
          exact congrArg Prod.snd hrc]
      obtain ⟨hpre, hcalls, hlen⟩ := ih (t + 1)
        (input_ids ++
          [next_token_of model us max_sequence_length eos_token_id t
            input_ids]) r c hr
      push_neg at hstop
      refine ⟨(List.prefix_append _ _).trans hpre, by omega, ?_⟩
      intro hle
      have hlt : input_ids.length < max_sequence_length :=
        lt_of_le_of_ne hle hstop.1
      exact hlen (by simp; omega)

theorem generate_sequence_aux_total {model : List ℕ → List (List Score)}
    {us : ℕ → ℝ} {max_sequence_length eos_token_id : ℕ} :
    ∀ fuel t input_ids, input_ids.length ≤ max_sequence_length →
      max_sequence_length + 1 - input_ids.length < fuel →
      ∃ res calls,
        generate_sequence_aux model us max_sequence_length eos_token_id fuel t
          input_ids = some (res, calls) := by
  intro fuel
  induction fuel with
  | zero =>
    intro t input_ids _ hfuel
    omega
  | succ fuel ih =>
    intro t input_ids hlen hfuel
    by_cases hstop : input_ids.length = max_sequence_length ∨
        next_token_of model us max_sequence_length eos_token_id t input_ids =
          eos_token_id
    · exact ⟨input_ids, 1, generate_sequence_aux_stop hstop⟩
    · have hne : input_ids.length ≠ max_sequence_length := by
        intro hcon
        exact hstop (Or.inl hcon)
      obtain ⟨res, calls, hres⟩ := ih (t + 1)
        (input_ids ++
          [next_token_of model us max_sequence_length eos_token_id t
            input_ids])
        (by simp; omega) (by simp; omega)
      refine ⟨res, calls + 1, ?_⟩
      rw [generate_sequence_aux_step hstop, hres]
      rfl

-- The one-hot scenario rows.

theorem oneHot_length (V j : ℕ) : (oneHot V j).length = V := by
  simp [oneHot]

theorem oneHot_getD {V j i : ℕ} (hi : i < V) :
    (oneHot V j).getD i ⊥ = if i = j then ((0 : ℚ) : Score) else ⊥ := by
  unfold oneHot
  rw [List.getD_eq_getElem _ _ (by simp [hi])]
  rw [List.getElem_set]
  by_cases h : i = j
  · rw [if_pos h.symm, if_pos h]
  · rw [if_neg (fun hc => h hc.symm), if_neg h]
    exact List.getElem_replicate _ _

theorem countP_finite_oneHot {V j : ℕ} (hj : j < V) :
    (oneHot V j).countP (fun s => decide (s ≠ ⊥)) = 1 := by
  induction V generalizing j with
  | zero => omega
  | succ V ih =>
    cases j with
    | zero =>
      have hrw : oneHot (V + 1) 0 = ((0 : ℚ) : Score) :: List.replicate V ⊥ := by
        simp [oneHot, List.replicate_succ]
      rw [hrw, List.countP_cons]
      have hz : (List.replicate V (⊥ : Score)).countP
          (fun s => decide (s ≠ ⊥)) = 0 := by
        rw [List.countP_eq_zero]
        intro a ha
        rw [List.eq_of_mem_replicate ha]
        simp
      rw [hz]
      simp
    | succ j' =>
      have hrw : oneHot (V + 1) (j' + 1) = (⊥ : Score) :: oneHot V j' := by
        simp [oneHot, List.replicate_succ]
      rw [hrw, List.countP_cons, ih (by omega)]
      simp

/-- Top-K leaves a one-hot row unchanged whenever the clamped `top_k`
exceeds 1 (the single finite entry): the threshold is then `-inf`. -/
theorem get_top_k_oneHot {V j : ℕ} (hj : j < V) (hV2 : 2 ≤ V) :
    get_top_k_logits (oneHot V j) 20 = oneHot V j := by
  apply get_top_k_eq_self_of_few_finite
  rw [countP_finite_oneHot hj]
  unfold top_k_clamped
  rw [oneHot_length]
  have : (2 : ℤ) ≤ (V : ℤ) := by exact_mod_cast hV2
  omega

/-- The filter–softmax–draw pipeline on a one-hot row always returns the
hot index, for any uniform draw in `[0, 1)`. -/
theorem pipeline_oneHot {V j : ℕ} (hj : j < V) (hV2 : 2 ≤ V)
    {u : ℝ} (hu0 : 0 ≤ u) (hu1 : u < 1) :
    choice (softmax (get_top_k_logits (oneHot V j) 20)) u = j := by
  rw [get_top_k_oneHot hj hV2]
  have hjlen : j < (oneHot V j).length := by
    rw [oneHot_length]
    exact hj
  have hpj : (oneHot V j).getD j ⊥ = ((0 : ℚ) : Score) := by
    rw [oneHot_getD hj, if_pos rfl]
  have hother : ∀ i, i < (oneHot V j).length → i ≠ j →
      (oneHot V j).getD i ⊥ = ⊥ := by
    intro i hi hij
    rw [oneHot_getD (by rwa [oneHot_length] at hi), if_neg hij]
  obtain ⟨hslen, hsj, hs0⟩ := softmax_indicator hjlen hpj hother
  exact choice_indicator (by omega) hsj
    (fun i hi hij => hs0 i (by omega) hij) hu0 hu1

/-- Zeta-expanded form of `next_token_of`. -/
theorem next_token_of_eq (model : List ℕ → List (List Score)) (us : ℕ → ℝ)
    (max_sequence_length eos_token_id t : ℕ) (input_ids : List ℕ) :
    next_token_of model us max_sequence_length eos_token_id t input_ids =
      choice (softmax (get_top_k_logits
        (process_logits input_ids
          (if input_ids.length = 0 then
            (model (input_ids ++
              List.replicate (max_sequence_length - input_ids.length)
                eos_token_id)).getD
              ((model (input_ids ++
                List.replicate (max_sequence_length - input_ids.length)
                  eos_token_id)).length - 1) []
           else
            (model (input_ids ++
              List.replicate (max_sequence_length - input_ids.length)
                eos_token_id)).getD (input_ids.length - 1) [])
          eos_token_id) 20)) (us t) :=
  rfl

/-- With the constant one-hot model, every iteration samples the hot
index `j`, as long as the current sequence is within bounds. -/
theorem next_token_of_constRow {V j max_sequence_length eos_token_id t : ℕ}
    {us : ℕ → ℝ} {input_ids : List ℕ}
    (hj : j < V) (hV2 : 2 ≤ V) (hmax : 0 < max_sequence_length)
    (hcur : input_ids.length ≤ max_sequence_length)
    (hu0 : 0 ≤ us t) (hu1 : us t < 1) :
    next_token_of (constRowModel max_sequence_length (oneHot V j)) us
      max_sequence_length eos_token_id t input_ids = j := by
  rw [next_token_of_eq]
  have hmodel : ∀ x : List ℕ,
      constRowModel max_sequence_length (oneHot V j) x =
        List.replicate max_sequence_length (oneHot V j) := fun _ => rfl
  simp only [hmodel]
  have hrow : (if input_ids.length = 0 then
      (List.replicate max_sequence_length (oneHot V j)).getD
        ((List.replicate max_sequence_length (oneHot V j)).length - 1) []
     else
      (List.replicate max_sequence_length (oneHot V j)).getD
        (input_ids.length - 1) []) = oneHot V j := by
    by_cases h : input_ids.length = 0
    · rw [if_pos h]
      rw [List.getD_eq_getElem _ _ (by simp; omega)]
      exact List.getElem_replicate _ _
    · rw [if_neg h]
      rw [List.getD_eq_getElem _ _ (by simp; omega)]
      exact List.getElem_replicate _ _
  rw [hrow]
  have hproc : process_logits input_ids (oneHot V j) eos_token_id =
      oneHot V j := by
    simp [process_logits]
  rw [hproc]
  exact pipeline_oneHot hj hV2 hu0 hu1

-- Claim theorems.

/-- C6: `process_logits` sets the score at index `eos_token_id` to `-inf`
exactly when the current length is below `min_length` (leaving all other
entries unchanged), returns the scores unchanged otherwise, and with the
default `min_length = 0` always returns them unchanged. (`eos_token_id` is
required to be in range, as NumPy would raise on an out-of-range index.) -/
theorem C6_process_logits_min_length (input_ids : List ℕ)
    (scores : List Score) (eos_token_id min_length : ℕ)
    (heos : eos_token_id < scores.length) :
    (input_ids.length < min_length →
      (process_logits input_ids scores eos_token_id min_length).getD
        eos_token_id ⊥ = ⊥ ∧
      ∀ i, i < scores.length → i ≠ eos_token_id →
        (process_logits input_ids scores eos_token_id min_length).getD i ⊥ =
          scores.getD i ⊥) ∧
    (min_length ≤ input_ids.length →
      process_logits input_ids scores eos_token_id min_length = scores) ∧
    process_logits input_ids scores eos_token_id 0 = scores := by
  refine ⟨?_, ?_, ?_⟩
  · intro hlt
    have hpl : process_logits input_ids scores eos_token_id min_length =
        scores.set eos_token_id ⊥ := by
      simp only [process_logits]
      rw [if_pos hlt]
    constructor
    · rw [hpl, List.getD_eq_getElem _ _
        (by rw [List.length_set]; exact heos), List.getElem_set, if_pos rfl]
    · intro i hi hne
      rw [hpl, List.getD_eq_getElem _ _ (by rw [List.length_set]; exact hi),
        List.getElem_set, if_neg (fun hc => hne hc.symm),
        List.getD_eq_getElem _ _ hi]
  · intro hge
    simp only [process_logits]
    rw [if_neg (not_lt.mpr hge)]
  · simp only [process_logits]
    rw [if_neg (by omega)]

/-- C6 witness: the theorem applied at a concrete input
(`input_ids = []`, `scores = [1, 2]`, `eos_token_id = 0`,
`min_length = 1`). -/
theorem C6_witness :
    (([] : List ℕ).length < 1 →
      (process_logits [] [((1 : ℚ) : Score), ((2 : ℚ) : Score)] 0 1).getD
        0 ⊥ = ⊥ ∧
      ∀ i, i < ([((1 : ℚ) : Score), ((2 : ℚ) : Score)] : List Score).length →
        i ≠ 0 →
        (process_logits [] [((1 : ℚ) : Score), ((2 : ℚ) : Score)] 0 1).getD
          i ⊥ =
          ([((1 : ℚ) : Score), ((2 : ℚ) : Score)] : List Score).getD i ⊥) ∧
    (1 ≤ ([] : List ℕ).length →
      process_logits [] [((1 : ℚ) : Score), ((2 : ℚ) : Score)] 0 1 =
        [((1 : ℚ) : Score), ((2 : ℚ) : Score)]) ∧
    process_logits [] [((1 : ℚ) : Score), ((2 : ℚ) : Score)] 0 0 =
      [((1 : ℚ) : Score), ((2 : ℚ) : Score)] :=
  C6_process_logits_min_length [] [((1 : ℚ) : Score), ((2 : ℚ) : Score)] 0 1
    (by decide)

/-- C5 counterexample: `process_logits` DOES mutate the caller's array in
place when `cur_length < min_length` — with `input_ids = []`,
`scores = [1, 2]`, `eos_token_id = 0`, `min_length = 1`, the caller's
array afterwards differs from the values it held before the call. -/
theorem C5_counterexample :
    process_logits_caller_after [] [((1 : ℚ) : Score), ((2 : ℚ) : Score)]
      0 1 ≠ [((1 : ℚ) : Score), ((2 : ℚ) : Score)] := by
  decide

/-- C5 (amended): `get_top_k_logits` never mutates the caller's vector;
`process_logits` leaves the caller's vector unchanged whenever
`min_length ≤ cur_length`, and in particular with the default
`min_length = 0` (the only configuration `generate_sequence` uses) —
but it mutates it in place when `cur_length < min_length`. -/
theorem C5_no_inplace_mutation (input_ids : List ℕ) (scores : List Score)
    (eos_token_id : ℕ) (top_k : ℤ) (min_length : ℕ) :
    get_top_k_logits_caller_after scores top_k = scores ∧
    process_logits_caller_after input_ids scores eos_token_id 0 = scores ∧
    (min_length ≤ input_ids.length →
      process_logits_caller_after input_ids scores eos_token_id min_length =
        scores) := by
  refine ⟨rfl, ?_, ?_⟩
  · simp only [process_logits_caller_after, process_logits]
    rw [if_neg (by omega)]
  · intro hge
    simp only [process_logits_caller_after, process_logits]
    rw [if_neg (not_lt.mpr hge)]

/-- C5 witness: the amended theorem applied at a concrete input. -/
theorem C5_witness :
    get_top_k_logits_caller_after [((3 : ℚ) : Score)] 2 =
      [((3 : ℚ) : Score)] ∧
    process_logits_caller_after [0] [((3 : ℚ) : Score)] 0 0 =
      [((3 : ℚ) : Score)] ∧
    (1 ≤ ([0] : List ℕ).length →
      process_logits_caller_after [0] [((3 : ℚ) : Score)] 0 1 =
        [((3 : ℚ) : Score)]) :=
  C5_no_inplace_mutation [0] [((3 : ℚ) : Score)] 0 2 1

/-- C3: `get_top_k_logits` clamps `top_k` to `[1, V]`, replaces every
entry strictly below the `top_k`-th largest score with `-inf`, leaves
every entry at or above that threshold unchanged (so all boundary ties
are retained), and the number of entries at or above the threshold is at
least the clamped `top_k`. -/
theorem C3_get_top_k_logits (scores : List Score) (top_k : ℤ)
    (hne : scores ≠ []) :
    1 ≤ top_k_clamped scores top_k ∧
    top_k_clamped scores top_k ≤ scores.length ∧
    (get_top_k_logits scores top_k).length = scores.length ∧
    (∀ i, i < scores.length →
      (scores.getD i ⊥ <
          (sortDesc scores).getD (top_k_clamped scores top_k - 1) ⊥ →
        (get_top_k_logits scores top_k).getD i ⊥ = ⊥) ∧
      ((sortDesc scores).getD (top_k_clamped scores top_k - 1) ⊥ ≤
          scores.getD i ⊥ →
        (get_top_k_logits scores top_k).getD i ⊥ = scores.getD i ⊥)) ∧
    top_k_clamped scores top_k ≤
      scores.countP (fun s => decide
        ((sortDesc scores).getD (top_k_clamped scores top_k - 1) ⊥ ≤ s)) := by
  have hk1 : 1 ≤ top_k_clamped scores top_k := one_le_top_k_clamped top_k hne
  have hk2 : top_k_clamped scores top_k ≤ scores.length :=
    top_k_clamped_le_length scores top_k
  have hk2' : top_k_clamped scores top_k ≤ (sortDesc scores).length := by
    rw [sortDesc_length]
    exact hk2
  have hkth : listMin ((sortDesc scores).take (top_k_clamped scores top_k)) =
      (sortDesc scores).getD (top_k_clamped scores top_k - 1) ⊥ :=
    listMin_take_sorted (sortDesc_sorted scores) hk1 hk2'
  refine ⟨hk1, hk2, ?_, ?_, ?_⟩
  · rw [get_top_k_logits_eq]
    simp
  · intro i hi
    constructor
    · intro hlt
      rw [get_top_k_logits_eq, getD_map_lt _ _ i hi ⊥ ⊥, hkth, if_pos hlt]
    · intro hle
      rw [get_top_k_logits_eq, getD_map_lt _ _ i hi ⊥ ⊥, hkth,
        if_neg (not_lt.mpr hle)]
  · have htake_all : ∀ a ∈ (sortDesc scores).take (top_k_clamped scores top_k),
        (fun s => decide
          ((sortDesc scores).getD (top_k_clamped scores top_k - 1) ⊥ ≤ s))
          a = true := by
      intro a ha
      simp only [decide_eq_true_eq]
      rw [← hkth]
      exact listMin_le_of_mem ha
    have hlen_take : ((sortDesc scores).take
        (top_k_clamped scores top_k)).length = top_k_clamped scores top_k := by
      rw [List.length_take, sortDesc_length]
      omega
    have hcnt_take : ((sortDesc scores).take
        (top_k_clamped scores top_k)).countP (fun s => decide
          ((sortDesc scores).getD (top_k_clamped scores top_k - 1) ⊥ ≤ s)) =
        top_k_clamped scores top_k := by
      rw [List.countP_eq_length.mpr htake_all, hlen_take]
    have hsplit := List.countP_append (fun s => decide
        ((sortDesc scores).getD (top_k_clamped scores top_k - 1) ⊥ ≤ s))
      ((sortDesc scores).take (top_k_clamped scores top_k))
      ((sortDesc scores).drop (top_k_clamped scores top_k))
    rw [List.take_append_drop] at hsplit
    have hperm := (sortDesc_perm scores).countP_eq (fun s => decide
        ((sortDesc scores).getD (top_k_clamped scores top_k - 1) ⊥ ≤ s))
    omega

/-- C3 witness: the theorem applied at `scores = [1, 3, 3, 0]`,
`top_k = 2` (ties at the boundary: threshold 3 retains both 3s). -/
theorem C3_witness :
    1 ≤ top_k_clamped
      [((1 : ℚ) : Score), ((3 : ℚ) : Score), ((3 : ℚ) : Score),
        ((0 : ℚ) : Score)] 2 ∧
    top_k_clamped
      [((1 : ℚ) : Score), ((3 : ℚ) : Score), ((3 : ℚ) : Score),
        ((0 : ℚ) : Score)] 2 ≤
      ([((1 : ℚ) : Score), ((3 : ℚ) : Score), ((3 : ℚ) : Score),
        ((0 : ℚ) : Score)] : List Score).length ∧
    (get_top_k_logits
      [((1 : ℚ) : Score), ((3 : ℚ) : Score), ((3 : ℚ) : Score),
        ((0 : ℚ) : Score)] 2).length =
      ([((1 : ℚ) : Score), ((3 : ℚ) : Score), ((3 : ℚ) : Score),
        ((0 : ℚ) : Score)] : List Score).length ∧
    (∀ i, i < ([((1 : ℚ) : Score), ((3 : ℚ) : Score), ((3 : ℚ) : Score),
        ((0 : ℚ) : Score)] : List Score).length →
      (([((1 : ℚ) : Score), ((3 : ℚ) : Score), ((3 : ℚ) : Score),
          ((0 : ℚ) : Score)] : List Score).getD i ⊥ <
          (sortDesc [((1 : ℚ) : Score), ((3 : ℚ) : Score), ((3 : ℚ) : Score),
            ((0 : ℚ) : Score)]).getD (top_k_clamped
              [((1 : ℚ) : Score), ((3 : ℚ) : Score), ((3 : ℚ) : Score),
                ((0 : ℚ) : Score)] 2 - 1) ⊥ →
        (get_top_k_logits
          [((1 : ℚ) : Score), ((3 : ℚ) : Score), ((3 : ℚ) : Score),
            ((0 : ℚ) : Score)] 2).getD i ⊥ = ⊥) ∧
      ((sortDesc [((1 : ℚ) : Score), ((3 : ℚ) : Score), ((3 : ℚ) : Score),
          ((0 : ℚ) : Score)]).getD (top_k_clamped
            [((1 : ℚ) : Score), ((3 : ℚ) : Score), ((3 : ℚ) : Score),
              ((0 : ℚ) : Score)] 2 - 1) ⊥ ≤
          ([((1 : ℚ) : Score), ((3 : ℚ) : Score), ((3 : ℚ) : Score),
            ((0 : ℚ) : Score)] : List Score).getD i ⊥ →
        (get_top_k_logits
          [((1 : ℚ) : Score), ((3 : ℚ) : Score), ((3 : ℚ) : Score),
            ((0 : ℚ) : Score)] 2).getD i ⊥ =
          ([((1 : ℚ) : Score), ((3 : ℚ) : Score), ((3 : ℚ) : Score),
            ((0 : ℚ) : Score)] : List Score).getD i ⊥)) ∧
    top_k_clamped
      [((1 : ℚ) : Score), ((3 : ℚ) : Score), ((3 : ℚ) : Score),
        ((0 : ℚ) : Score)] 2 ≤
      ([((1 : ℚ) : Score), ((3 : ℚ) : Score), ((3 : ℚ) : Score),
        ((0 : ℚ) : Score)] : List Score).countP (fun s => decide
          ((sortDesc [((1 : ℚ) : Score), ((3 : ℚ) : Score), ((3 : ℚ) : Score),
            ((0 : ℚ) : Score)]).getD (top_k_clamped
              [((1 : ℚ) : Score), ((3 : ℚ) : Score), ((3 : ℚ) : Score),
                ((0 : ℚ) : Score)] 2 - 1) ⊥ ≤ s)) :=
  C3_get_top_k_logits
    [((1 : ℚ) : Score), ((3 : ℚ) : Score), ((3 : ℚ) : Score),
      ((0 : ℚ) : Score)] 2 (by decide)

theorem sum_map_div (l : List ℝ) (c : ℝ) :
    (l.map (fun v => v / c)).sum = l.sum / c := by
  induction l with
  | nil => simp
  | cons a t ih => simp [ih, add_div]

/-- C7: on any logits row with a finite maximum (every row the pipeline
feeds to `softmax` — raw model rows are finite-valued and the top-K filter
keeps at least one entry at the threshold), the softmax output sums to
exactly 1, is entry-wise non-negative, and maps every `-inf` input entry
to probability 0. (A row with no finite entry makes the float reference
produce NaN, not a probability vector; that is outside the logits-vector
domain and excluded by the hypothesis.) -/
theorem C7_softmax_distribution (x : List Score)
    (hmax : listMax x ≠ ⊥) :
    (softmax x).sum = 1 ∧
    (∀ p ∈ softmax x, 0 ≤ p) ∧
    (∀ i, i < x.length → x.getD i ⊥ = ⊥ → (softmax x).getD i 0 = 0) := by
  rcases WithBot.ne_bot_iff_exists.mp hmax with ⟨m, hm⟩
  have hm' : (listMax x).unbot' 0 = m := by
    rw [← hm]
    exact WithBot.unbot'_coe 0 m
  have hsm : softmax x =
      (x.map (sexp m)).map (fun v => v / (x.map (sexp m)).sum) := by
    unfold softmax
    rw [if_neg hmax]
    simp only [hm']
  have hxne : x ≠ [] := by
    intro hcon
    subst hcon
    exact hmax rfl
  have hnonneg : ∀ v ∈ x.map (sexp m), 0 ≤ v := by
    intro v hv
    rcases List.mem_map.mp hv with ⟨s, _, rfl⟩
    unfold sexp
    by_cases hs : s = ⊥
    · rw [if_pos hs]
    · rw [if_neg hs]
      exact le_of_lt (Real.exp_pos _)
  have hone : (1 : ℝ) ∈ x.map (sexp m) := by
    have hmem : ((m : ℚ) : Score) ∈ x := by
      rw [hm]
      exact listMax_mem hxne
    have : sexp m ((m : ℚ) : Score) = 1 := by
      unfold sexp
      rw [if_neg WithBot.coe_ne_bot, WithBot.unbot'_coe]
      simp [Real.exp_zero]
    rw [← this]
    exact List.mem_map_of_mem _ hmem
  have hSpos : 0 < (x.map (sexp m)).sum :=
    lt_of_lt_of_le zero_lt_one (List.single_le_sum hnonneg 1 hone)
  refine ⟨?_, ?_, ?_⟩
  · rw [hsm, sum_map_div]
    exact div_self (ne_of_gt hSpos)
  · intro p hp
    rw [hsm] at hp
    rcases List.mem_map.mp hp with ⟨v, hv, rfl⟩
    exact div_nonneg (hnonneg v hv) (le_of_lt hSpos)
  · intro i hi hbot
    rw [hsm, getD_map_lt _ _ i (by simpa using hi) 0 0,
      getD_map_lt _ _ i hi ⊥ 0, hbot]
    simp [sexp]

/-- C7 witness: the theorem applied at `x = [0, -inf]`. -/
theorem C7_witness :
    (softmax [((0 : ℚ) : Score), ⊥]).sum = 1 ∧
    (∀ p ∈ softmax [((0 : ℚ) : Score), ⊥], 0 ≤ p) ∧
    (∀ i, i < ([((0 : ℚ) : Score), ⊥] : List Score).length →
      ([((0 : ℚ) : Score), ⊥] : List Score).getD i ⊥ = ⊥ →
      (softmax [((0 : ℚ) : Score), ⊥]).getD i 0 = 0) :=
  C7_softmax_distribution [((0 : ℚ) : Score), ⊥] (by decide)

/-- C9: with `top_k = 1` and a logits row whose maximum is finite and
attained at a unique index `j`, the filter–softmax–sample pipeline puts
probability 1 on `j`: it returns `j` for every uniform draw in `[0, 1)`,
so two runs on identical inputs yield identical results. -/
theorem C9_top1_deterministic (scores : List Score) (j : ℕ) (m : ℚ)
    (u u' : ℝ) (hj : j < scores.length)
    (hsj : scores.getD j ⊥ = ((m : ℚ) : Score))
    (hlt : ∀ i, i < scores.length → i ≠ j →
      scores.getD i ⊥ < ((m : ℚ) : Score))
    (hu0 : 0 ≤ u) (hu1 : u < 1) (hu0' : 0 ≤ u') (hu1' : u' < 1) :
    choice (softmax (get_top_k_logits scores 1)) u = j ∧
    choice (softmax (get_top_k_logits scores 1)) u' =
      choice (softmax (get_top_k_logits scores 1)) u := by
  have hne : scores ≠ [] := by
    intro hcon
    subst hcon
    simp at hj
  have hk : top_k_clamped scores 1 = 1 := by
    have hlen : 1 ≤ scores.length := by omega
    unfold top_k_clamped
    have : (1 : ℤ) ≤ (scores.length : ℤ) := by exact_mod_cast hlen
    omega
  have hub : ∀ i, i < scores.length → scores.getD i ⊥ ≤ ((m : ℚ) : Score) := by
    intro i hi
    by_cases hij : i = j
    · subst hij
      rw [hsj]
    · exact le_of_lt (hlt i hi hij)
  have hmax : listMax scores = ((m : ℚ) : Score) :=
    listMax_eq_of_ub hj hsj hub
  have hth : listMin ((sortDesc scores).take (top_k_clamped scores 1)) =
      ((m : ℚ) : Score) := by
    rw [listMin_take_sorted (sortDesc_sorted scores) (by omega)
      (by rw [sortDesc_length]; omega), hk]
    rw [sortDesc_getD_zero hne]
    exact hmax
  have hfil : get_top_k_logits scores 1 =
      scores.map (fun s => if s < ((m : ℚ) : Score) then ⊥ else s) := by
    rw [get_top_k_logits_eq, hth]
  have hlen_fil : (get_top_k_logits scores 1).length = scores.length := by
    rw [hfil]
    simp
  have hfj : (get_top_k_logits scores 1).getD j ⊥ = ((m : ℚ) : Score) := by
    rw [hfil, getD_map_lt _ _ j hj ⊥ ⊥, hsj, if_neg (lt_irrefl _)]
  have hf0 : ∀ i, i < (get_top_k_logits scores 1).length → i ≠ j →
      (get_top_k_logits scores 1).getD i ⊥ = ⊥ := by
    intro i hi hij
    rw [hlen_fil] at hi
    rw [hfil, getD_map_lt _ _ i hi ⊥ ⊥, if_pos (hlt i hi hij)]
  obtain ⟨hslen, hsj', hs0⟩ := softmax_indicator
    (by rw [hlen_fil]; exact hj) hfj hf0
  rw [hlen_fil] at hslen
  have hmain : ∀ v : ℝ, 0 ≤ v → v < 1 →
      choice (softmax (get_top_k_logits scores 1)) v = j := by
    intro v hv0 hv1
    exact choice_indicator (by omega) hsj'
      (fun i hi hij => hs0 i (by omega) hij) hv0 hv1
  rw [hmain u hu0 hu1, hmain u' hu0' hu1']
  exact ⟨rfl, rfl⟩

/-- C9 witness: the theorem applied at `scores = [1, 3, 2]` (unique
argmax at index 1), `u = u' = 0`. -/
theorem C9_witness :
    choice (softmax (get_top_k_logits
      [((1 : ℚ) : Score), ((3 : ℚ) : Score), ((2 : ℚ) : Score)] 1)) 0 = 1 ∧
    choice (softmax (get_top_k_logits
      [((1 : ℚ) : Score), ((3 : ℚ) : Score), ((2 : ℚ) : Score)] 1)) 0 =
    choice (softmax (get_top_k_logits
      [((1 : ℚ) : Score), ((3 : ℚ) : Score), ((2 : ℚ) : Score)] 1)) 0 :=
  C9_top1_deterministic
    [((1 : ℚ) : Score), ((3 : ℚ) : Score), ((2 : ℚ) : Score)] 1 3 0 0
    (by decide) (by decide) (by decide)
    (le_refl 0) zero_lt_one (le_refl 0) zero_lt_one

/-- C2: whenever `1 ≤ length(prompt) ≤ max_sequence_length`, for every
model and every sequence of uniform draws, `generate_sequence` terminates
and returns a sequence whose length lies between the prompt length and
`max_sequence_length` inclusive. -/
theorem C2_length_bounds (model : List ℕ → List (List Score)) (us : ℕ → ℝ)
    (input_ids : List ℕ) (max_sequence_length eos_token_id : ℕ)
    (h1 : 1 ≤ input_ids.length)
    (h2 : input_ids.length ≤ max_sequence_length) :
    ∃ res, generate_sequence model us input_ids max_sequence_length
        eos_token_id = some res ∧
      input_ids.length ≤ res.length ∧
      res.length ≤ max_sequence_length := by
  obtain ⟨res, calls, hres⟩ := generate_sequence_aux_total
    (max_sequence_length + 2) 0 input_ids h2 (by omega)
  obtain ⟨hpre, _, hlen⟩ := generate_sequence_aux_spec _ _ _ _ _ hres
  refine ⟨res, ?_, hpre.length_le, hlen h2⟩
  unfold generate_sequence generate_sequence_traced
  rw [hres]
  rfl

/-- C2 witness: the theorem applied at a concrete input. -/
theorem C2_witness :
    ∃ res, generate_sequence (fun _ => []) (fun _ => 0) [0] 1 0 = some res ∧
      ([0] : List ℕ).length ≤ res.length ∧ res.length ≤ 1 :=
  C2_length_bounds (fun _ => []) (fun _ => 0) [0] 1 0 (by decide) (by decide)

/-- C10: whenever `length(prompt) ≤ max_sequence_length`, for every model
and every sequence of uniform draws, `generate_sequence` terminates and
its result has the prompt as a prefix (the loop only ever appends). -/
theorem C10_prompt_prefix (model : List ℕ → List (List Score)) (us : ℕ → ℝ)
    (input_ids : List ℕ) (max_sequence_length eos_token_id : ℕ)
    (h : input_ids.length ≤ max_sequence_length) :
    ∃ res, generate_sequence model us input_ids max_sequence_length
        eos_token_id = some res ∧
      input_ids <+: res := by
  obtain ⟨res, calls, hres⟩ := generate_sequence_aux_total
    (max_sequence_length + 2) 0 input_ids h (by omega)
  obtain ⟨hpre, _, _⟩ := generate_sequence_aux_spec _ _ _ _ _ hres
  refine ⟨res, ?_, hpre⟩
  unfold generate_sequence generate_sequence_traced
  rw [hres]
  rfl

/-- C10 witness: the theorem applied at a concrete input. -/
theorem C10_witness :
    ∃ res, generate_sequence (fun _ => []) (fun _ => 0) [3, 4] 2 0 =
        some res ∧ ([3, 4] : List ℕ) <+: res :=
  C10_prompt_prefix (fun _ => []) (fun _ => 0) [3, 4] 2 0 (by decide)

/-- C4 (amended): when the current sequence already has length
`max_sequence_length` at the start of an iteration, `generate_sequence`
does return `input_ids` unchanged — but only after invoking the model one
more time on that iteration (the call count is 1, not 0): the reference
checks the stop condition after the model call and the sampling, so the
model IS called with a sequence already at maximum length. -/
theorem C4_returns_unchanged_after_one_more_call
    (model : List ℕ → List (List Score)) (us : ℕ → ℝ)
    (input_ids : List ℕ) (max_sequence_length eos_token_id : ℕ)
    (h : input_ids.length = max_sequence_length) :
    generate_sequence_traced model us input_ids max_sequence_length
      eos_token_id = some (input_ids, 1) := by
  unfold generate_sequence_traced
  exact @generate_sequence_aux_stop model us max_sequence_length
    eos_token_id (max_sequence_length + 1) 0 input_ids (Or.inl h)

/-- C4 witness: the amended theorem applied at a concrete input. -/
theorem C4_witness :
    generate_sequence_traced (fun _ => [[((0 : ℚ) : Score)]]) (fun _ => 0)
      [0] 1 0 = some ([0], 1) :=
  C4_returns_unchanged_after_one_more_call (fun _ => [[((0 : ℚ) : Score)]])
    (fun _ => 0) [0] 1 0 (by decide)

/-- C4 counterexample: starting an iteration at maximum length, the run
performs exactly one model call (the trace's call count is 1, not 0), so
"the model is never called with a sequence already at maximum length" is
false on the code. -/
theorem C4_counterexample :
    generate_sequence_traced (fun _ => [[((1 : ℚ) : Score)]]) (fun _ => 0)
      [2] 1 0 = some ([2], 1) ∧
    generate_sequence_traced (fun _ => [[((1 : ℚ) : Score)]]) (fun _ => 0)
      [2] 1 0 ≠ some ([2], 0) := by
  have heval : generate_sequence_traced (fun _ => [[((1 : ℚ) : Score)]])
      (fun _ => 0) [2] 1 0 = some ([2], 1) := by
    unfold generate_sequence_traced
    exact @generate_sequence_aux_stop (fun _ => [[((1 : ℚ) : Score)]])
      (fun _ => 0) 1 0 2 0 [2] (Or.inl rfl)
  refine ⟨heval, ?_⟩
  rw [heval]
  simp

/-- Evaluation helper: with a prompt strictly longer than
`max_sequence_length`, the loop still runs: it calls the model once, and
(here) samples the eos token and stops. -/
theorem gen_overlong_eval :
    generate_sequence_traced
      (fun mi => List.replicate mi.length (oneHot 2 0)) (fun _ => 0)
      [0, 0] 1 0 = some ([0, 0], 1) := by
  unfold generate_sequence_traced
  apply @generate_sequence_aux_stop
    (fun mi => List.replicate mi.length (oneHot 2 0)) (fun _ => 0) 1 0
    (1 + 1) 0 [0, 0]
  right
  show choice (softmax (get_top_k_logits (oneHot 2 0) 20)) 0 = 0
  exact pipeline_oneHot (by omega) (by omega) (le_refl 0) zero_lt_one

/-- C8 (amended): `generate_sequence` performs no prompt-length
validation: with `length(prompt) > max_sequence_length` it does not fail
fast — whenever the run returns, it has invoked the model at least once
and produced a generation extending the over-long prompt. -/
theorem C8_no_prompt_validation (model : List ℕ → List (List Score))
    (us : ℕ → ℝ) (input_ids : List ℕ)
    (max_sequence_length eos_token_id : ℕ) (res : List ℕ) (calls : ℕ)
    (hlong : max_sequence_length < input_ids.length)
    (hres : generate_sequence_traced model us input_ids max_sequence_length
      eos_token_id = some (res, calls)) :
    1 ≤ calls ∧ input_ids <+: res := by
  unfold generate_sequence_traced at hres
  obtain ⟨hpre, hcalls, _⟩ := generate_sequence_aux_spec _ _ _ _ _ hres
  exact ⟨hcalls, hpre⟩

/-- C8 witness: the amended theorem applied at a concrete input. -/
theorem C8_witness : 1 ≤ 1 ∧ ([0, 0] : List ℕ) <+: [0, 0] :=
  C8_no_prompt_validation
    (fun mi => List.replicate mi.length (oneHot 2 0)) (fun _ => 0)
    [0, 0] 1 0 [0, 0] 1 (by decide) gen_overlong_eval

/-- C8 counterexample: with prompt `[0, 0]` and `max_sequence_length = 1`
(prompt longer than the bound), `generate_sequence` does not fail before
any model call: it calls the model once and returns a generation. -/
theorem C8_counterexample :
    generate_sequence (fun mi => List.replicate mi.length (oneHot 2 0))
      (fun _ => 0) [0, 0] 1 0 = some [0, 0] ∧
    generate_sequence_traced
      (fun mi => List.replicate mi.length (oneHot 2 0)) (fun _ => 0)
      [0, 0] 1 0 = some ([0, 0], 1) := by
  refine ⟨?_, gen_overlong_eval⟩
  unfold generate_sequence
  rw [gen_overlong_eval]
  rfl

/-- C1: whenever the stop condition triggers at an iteration start (the
current length equals `max_sequence_length`, or the token just sampled
equals `eos_token_id`), `generate_sequence` returns `input_ids` without
appending the sampled token; in particular, from prompt `[5, 9, 2]` with
`max_sequence_length = 5` and `eos_token_id = 50`, a model whose logits
always make the sampler pick 50 yields exactly `[5, 9, 2]`, and a model
whose logits always make the sampler pick 7 yields exactly
`[5, 9, 2, 7, 7]` — for every sequence of uniform draws in `[0, 1)`. -/
theorem C1_stop_discards_sampled_token (us : ℕ → ℝ)
    (hus : ∀ t, 0 ≤ us t ∧ us t < 1) :
    (∀ (model : List ℕ → List (List Score)) (input_ids : List ℕ)
        (max_sequence_length eos_token_id : ℕ),
      (input_ids.length = max_sequence_length ∨
        next_token_of model us max_sequence_length eos_token_id 0
          input_ids = eos_token_id) →
      generate_sequence model us input_ids max_sequence_length
        eos_token_id = some input_ids) ∧
    generate_sequence (constRowModel 5 (oneHot 51 50)) us [5, 9, 2] 5 50 =
      some [5, 9, 2] ∧
    generate_sequence (constRowModel 5 (oneHot 51 7)) us [5, 9, 2] 5 50 =
      some [5, 9, 2, 7, 7] := by
  refine ⟨?_, ?_, ?_⟩
  · intro model input_ids max_sequence_length eos_token_id hstop
    unfold generate_sequence generate_sequence_traced
    have h := @generate_sequence_aux_stop model us max_sequence_length
      eos_token_id (max_sequence_length + 1) 0 input_ids hstop
    rw [show max_sequence_length + 2 = max_sequence_length + 1 + 1 from rfl, h]
    rfl
  · have h0 : next_token_of (constRowModel 5 (oneHot 51 50)) us 5 50 0
        [5, 9, 2] = 50 :=
      next_token_of_constRow (by omega) (by omega) (by omega) (by decide)
        (hus 0).1 (hus 0).2
    unfold generate_sequence generate_sequence_traced
    have h := @generate_sequence_aux_stop (constRowModel 5 (oneHot 51 50))
      us 5 50 6 0 [5, 9, 2] (Or.inr h0)
    rw [show (5 + 2 : ℕ) = 6 + 1 from rfl, h]
    rfl
  · have h0 : next_token_of (constRowModel 5 (oneHot 51 7)) us 5 50 0
        [5, 9, 2] = 7 :=
      next_token_of_constRow (by omega) (by omega) (by omega) (by decide)
        (hus 0).1 (hus 0).2
    have h1 : next_token_of (constRowModel 5 (oneHot 51 7)) us 5 50 1
        [5, 9, 2, 7] = 7 :=
      next_token_of_constRow (by omega) (by omega) (by omega) (by decide)
        (hus 1).1 (hus 1).2
    have hc0 : ¬ (([5, 9, 2] : List ℕ).length = 5 ∨
        next_token_of (constRowModel 5 (oneHot 51 7)) us 5 50 0
          [5, 9, 2] = 50) := by
      rw [h0]
      decide
    have hc1 : ¬ (([5, 9, 2, 7] : List ℕ).length = 5 ∨
        next_token_of (constRowModel 5 (oneHot 51 7)) us 5 50 1
          [5, 9, 2, 7] = 50) := by
      rw [h1]
      decide
    have e2 : generate_sequence_aux (constRowModel 5 (oneHot 51 7)) us 5 50
        5 2 [5, 9, 2, 7, 7] = some ([5, 9, 2, 7, 7], 1) :=
      @generate_sequence_aux_stop (constRowModel 5 (oneHot 51 7)) us 5 50
        4 2 [5, 9, 2, 7, 7] (Or.inl rfl)
    have e1 : generate_sequence_aux (constRowModel 5 (oneHot 51 7)) us 5 50
        6 1 [5, 9, 2, 7] = some ([5, 9, 2, 7, 7], 2) := by
      show generate_sequence_aux (constRowModel 5 (oneHot 51 7)) us 5 50
        (5 + 1) 1 [5, 9, 2, 7] = some ([5, 9, 2, 7, 7], 2)
      rw [@generate_sequence_aux_step (constRowModel 5 (oneHot 51 7)) us 5
        50 5 1 [5, 9, 2, 7] hc1, h1,
        show ([5, 9, 2, 7] : List ℕ) ++ [7] = [5, 9, 2, 7, 7] from rfl, e2]
      rfl
    unfold generate_sequence generate_sequence_traced
    rw [show (5 + 2 : ℕ) = 6 + 1 from rfl,
      @generate_sequence_aux_step (constRowModel 5 (oneHot 51 7)) us 5 50
        6 0 [5, 9, 2] hc0, h0,
      show ([5, 9, 2] : List ℕ) ++ [7] = [5, 9, 2, 7] from rfl, e1]
    rfl

/-- C1 witness: the theorem applied at the constant draw `u = 0`. -/
theorem C1_witness :
    (∀ (model : List ℕ → List (List Score)) (input_ids : List ℕ)
        (max_sequence_length eos_token_id : ℕ),
      (input_ids.length = max_sequence_length ∨
        next_token_of model (fun _ => 0) max_sequence_length eos_token_id 0
          input_ids = eos_token_id) →
      generate_sequence model (fun _ => 0) input_ids max_sequence_length
        eos_token_id = some input_ids) ∧
    generate_sequence (constRowModel 5 (oneHot 51 50)) (fun _ => 0)
      [5, 9, 2] 5 50 = some [5, 9, 2] ∧
    generate_sequence (constRowModel 5 (oneHot 51 7)) (fun _ => 0)
      [5, 9, 2] 5 50 = some [5, 9, 2, 7, 7] :=
  C1_stop_discards_sampled_token (fun _ => 0)
    (fun _ => ⟨le_refl 0, zero_lt_one⟩)
